import Mathlib

/-!
Shallow embedding of the 48hd-hover-plot selection/plotting pipeline
(`src/app.py` and `src/pages/r3.py`).

Tables are lists of records.  Measurement ("FC") columns are carried per
row as an association list from column name to an exact rational value
(the float64 the column holds).  Scale-transformed plotted values are
represented by `PlotVal`, which keeps the IEEE classification of the
result exact (`log10` of a negative number is NaN, of zero is -inf, of a
positive number a finite value) while representing finite transcendental
results symbolically.  The `pl.Float32` cast applied to the plot column
is modelled exactly on the untransformed (Linear) branch by `roundF32` /
`f32Cast`, binary32 round-to-nearest-even with overflow to ±∞.
-/

namespace HoverPlot

/-- A row of the uploaded table, as consumed after CSV/XLSX decoding.
`fc` holds the fold-change measurement columns (name ↦ value); `extra`
holds any extraneous input columns (name ↦ raw cell text). -/
structure InputRow where
  groupID : String
  position : String
  seqOrigin : String
  sequence : String
  inputCPM : Int
  fc : List (String × ℚ)
  extra : List (String × String)
deriving DecidableEq, Repr

/-- A row of the normalized table kept in the `data-store` after a
successful upload: required columns, FC columns, `Legend`, and the row
index added by `with_row_index`.  Extraneous columns are gone. -/
structure StoredRow where
  groupID : String
  position : String
  seqOrigin : String
  sequence : String
  inputCPM : Int
  fc : List (String × ℚ)
  legend : String
  index : Nat
deriving DecidableEq, Repr

/-- The projection of a row to the required + FC columns, used to state
that normalization drops extraneous columns but keeps every row. -/
structure CoreRow where
  groupID : String
  position : String
  seqOrigin : String
  sequence : String
  inputCPM : Int
  fc : List (String × ℚ)
deriving DecidableEq, Repr

def InputRow.core (r : InputRow) : CoreRow :=
  ⟨r.groupID, r.position, r.seqOrigin, r.sequence, r.inputCPM, r.fc⟩

def StoredRow.core (r : StoredRow) : CoreRow :=
  ⟨r.groupID, r.position, r.seqOrigin, r.sequence, r.inputCPM, r.fc⟩

/-- Value of measurement column `name` in row `r` (rows of one table all
carry the same column names). -/
def fcVal (r : StoredRow) (name : String) : ℚ :=
  ((r.fc.lookup name).getD 0)

/-- `required_columns` of `app.py`. -/
def requiredColumns : List String :=
  ["GroupID", "Position", "seq_origin", "sequence", "Input_CPM"]

/-- `'FC' in col` — the measurement-column naming convention. -/
def hasFC (c : String) : Bool :=
  decide ("FC".toList <:+: c.toList)

/-- The FC columns of a schema, in schema order. -/
def fcColumns (cols : List String) : List String :=
  cols.filter hasFC

/-- Structured validation outcome (`upload_data` error labels). -/
inductive ValidationError where
  | missingColumn (column : String)
  | noMeasurementColumns
deriving DecidableEq, Repr

/-- The first required column absent from the uploaded schema — the loop
at `app.py` lines 125-127 reports the first miss. -/
def firstMissing (cols : List String) : Option String :=
  requiredColumns.find? (fun c => !(cols.contains c))

/-- Schema validation of `upload_data`: required columns first, then at
least one FC column. -/
def uploadValidate (cols : List String) : Option ValidationError :=
  match firstMissing cols with
  | some c => some (.missingColumn c)
  | none => if fcColumns cols = [] then some .noMeasurementColumns else none

/-- Number of rows of the table sharing `g` as `GroupID`
(the `group_counts` aggregation). -/
def groupCount (tbl : List InputRow) (g : String) : Nat :=
  (tbl.filter (fun r => r.groupID = g)).length

/-- The row classifier (`app.py` line 141): `Legend` is `"parent"` when
the row's group has more than one member and its position is `"0Z"`,
otherwise the row's `seq_origin`. -/
def legendOf (tbl : List InputRow) (r : InputRow) : String :=
  if groupCount tbl r.groupID > 1 ∧ r.position = "0Z" then "parent" else r.seqOrigin

/-- Lexicographic Boolean ≤ on a triple of keys from a linear order. -/
def lex3Le {α : Type} [LinearOrder α] (a b : α × α × α) : Bool :=
  decide (a.1 < b.1 ∨ (a.1 = b.1 ∧ (a.2.1 < b.2.1 ∨ (a.2.1 = b.2.1 ∧ a.2.2 ≤ b.2.2))))

theorem lex3Le_trans {α : Type} [LinearOrder α] (a b c : α × α × α)
    (hab : lex3Le a b) (hbc : lex3Le b c) : lex3Le a c := by
  simp only [lex3Le, decide_eq_true_eq] at *
  rcases hab with h1 | ⟨h1, h2⟩ <;> rcases hbc with h3 | ⟨h3, h4⟩
  · exact Or.inl (lt_trans h1 h3)
  · exact Or.inl (h3 ▸ h1)
  · exact Or.inl (h1 ▸ h3)
  · refine Or.inr ⟨h1.trans h3, ?_⟩
    rcases h2 with h2 | ⟨h2, h5⟩ <;> rcases h4 with h4 | ⟨h4, h6⟩
    · exact Or.inl (lt_trans h2 h4)
    · exact Or.inl (h4 ▸ h2)
    · exact Or.inl (h2 ▸ h4)
    · exact Or.inr ⟨h2.trans h4, h5.trans h6⟩

theorem lex3Le_total {α : Type} [LinearOrder α] (a b : α × α × α) :
    lex3Le a b || lex3Le b a := by
  simp only [lex3Le, Bool.or_eq_true, decide_eq_true_eq]
  rcases lt_trichotomy a.1 b.1 with h | h | h
  · exact Or.inl (Or.inl h)
  · rcases lt_trichotomy a.2.1 b.2.1 with h2 | h2 | h2
    · exact Or.inl (Or.inr ⟨h, Or.inl h2⟩)
    · rcases le_total a.2.2 b.2.2 with h3 | h3
      · exact Or.inl (Or.inr ⟨h, Or.inr ⟨h2, h3⟩⟩)
      · exact Or.inr (Or.inr ⟨h.symm, Or.inr ⟨h2.symm, h3⟩⟩)
    · exact Or.inr (Or.inr ⟨h.symm, Or.inl h2⟩)
  · exact Or.inr (Or.inl h)

/-- Byte/code-point lexicographic ≤ on character lists — the string order
polars sorts by (UTF-8 preserves code-point order). -/
def charListLe : List Char → List Char → Bool
  | [], _ => true
  | _ :: _, [] => false
  | a :: as, b :: bs =>
    if a.toNat < b.toNat then true
    else if b.toNat < a.toNat then false
    else charListLe as bs

/-- Lexicographic ≤ on strings. -/
def strLe (a b : String) : Bool :=
  charListLe a.toList b.toList

theorem charToNat_inj {a b : Char} (h : a.toNat = b.toNat) : a = b := by
  have h2 := congrArg Char.ofNat h
  simpa using h2

theorem charListLe_total : ∀ a b : List Char, charListLe a b || charListLe b a
  | [], _ => by simp [charListLe]
  | _ :: _, [] => by simp [charListLe]
  | a :: as, b :: bs => by
    simp only [charListLe]
    rcases Nat.lt_trichotomy a.toNat b.toNat with h | h | h
    · simp [h]
    · simpa [h, Nat.lt_irrefl] using charListLe_total as bs
    · simp [h, Nat.lt_asymm h]

theorem charListLe_trans :
    ∀ a b c : List Char, charListLe a b → charListLe b c → charListLe a c
  | [], _, _, _, _ => by simp [charListLe]
  | _ :: _, [], _, hab, _ => by simp [charListLe] at hab
  | _ :: _, _ :: _, [], _, hbc => by simp [charListLe] at hbc
  | a :: as, b :: bs, c :: cs, hab, hbc => by
    simp only [charListLe] at hab hbc ⊢
    by_cases h1 : a.toNat < b.toNat <;> by_cases h2 : b.toNat < c.toNat <;>
      by_cases h3 : b.toNat < a.toNat <;> by_cases h4 : c.toNat < b.toNat <;>
      first
        | omega
        | (rw [if_neg h1, if_pos h3] at hab; exact absurd hab (by simp))
        | (rw [if_neg h2, if_pos h4] at hbc; exact absurd hbc (by simp))
        | (rw [if_pos (show a.toNat < c.toNat by omega)])
        | (rw [if_neg (show ¬ a.toNat < c.toNat by omega),
            if_neg (show ¬ c.toNat < a.toNat by omega)]
           rw [if_neg h1, if_neg h3] at hab
           rw [if_neg h2, if_neg h4] at hbc
           exact charListLe_trans as bs cs hab hbc)

theorem charListLe_antisymm :
    ∀ a b : List Char, charListLe a b → charListLe b a → a = b
  | [], [], _, _ => rfl
  | [], _ :: _, _, hba => by simp [charListLe] at hba
  | _ :: _, [], hab, _ => by simp [charListLe] at hab
  | a :: as, b :: bs, hab, hba => by
    simp only [charListLe] at hab hba
    rcases Nat.lt_trichotomy a.toNat b.toNat with h | h | h
    · simp [h, Nat.lt_asymm h] at hba
    · have hc : a = b := charToNat_inj h
      subst hc
      simp only [Nat.lt_irrefl, if_false] at hab hba
      exact congrArg (a :: ·) (charListLe_antisymm as bs (by simpa using hab) (by simpa using hba))
    · simp [h, Nat.lt_asymm h] at hab

theorem strLe_total (a b : String) : strLe a b || strLe b a :=
  charListLe_total _ _

theorem strLe_trans {a b c : String} (h1 : strLe a b) (h2 : strLe b c) : strLe a c :=
  charListLe_trans _ _ _ h1 h2

theorem strLe_antisymm {a b : String} (h1 : strLe a b) (h2 : strLe b a) : a = b :=
  String.ext (charListLe_antisymm _ _ h1 h2)

/-- Lexicographic Boolean ≤ on a triple of string keys. -/
def str3Le (a b : String × String × String) : Bool :=
  if a.1 = b.1 then
    if a.2.1 = b.2.1 then strLe a.2.2 b.2.2
    else strLe a.2.1 b.2.1
  else strLe a.1 b.1

theorem str3Le_total (a b : String × String × String) : str3Le a b || str3Le b a := by
  simp only [str3Le]
  by_cases h1 : a.1 = b.1
  · rw [if_pos h1, if_pos h1.symm]
    by_cases h2 : a.2.1 = b.2.1
    · rw [if_pos h2, if_pos h2.symm]
      exact strLe_total _ _
    · rw [if_neg h2, if_neg (fun h => h2 h.symm)]
      exact strLe_total _ _
  · rw [if_neg h1, if_neg (fun h => h1 h.symm)]
    exact strLe_total _ _

theorem str3Le_trans (a b c : String × String × String)
    (hab : str3Le a b) (hbc : str3Le b c) : str3Le a c := by
  unfold str3Le at hab hbc ⊢
  by_cases h1 : a.1 = b.1 <;> by_cases h2 : b.1 = c.1
  · rw [if_pos h1] at hab
    rw [if_pos h2] at hbc
    rw [if_pos (h1.trans h2)]
    by_cases h3 : a.2.1 = b.2.1 <;> by_cases h4 : b.2.1 = c.2.1
    · rw [if_pos h3] at hab
      rw [if_pos h4] at hbc
      rw [if_pos (h3.trans h4)]
      exact strLe_trans hab hbc
    · rw [if_neg h4] at hbc
      rw [if_neg (fun h => h4 (h3.symm.trans h)), h3]
      exact hbc
    · rw [if_neg h3] at hab
      rw [if_neg (fun h => h3 (h.trans h4.symm)), ← h4]
      exact hab
    · rw [if_neg h3] at hab
      rw [if_neg h4] at hbc
      by_cases h5 : a.2.1 = c.2.1
      · have hba : strLe b.2.1 a.2.1 := by rw [h5]; exact hbc
        exact absurd (strLe_antisymm hab hba) h3
      · rw [if_neg h5]
        exact strLe_trans hab hbc
  · rw [if_neg h2] at hbc
    rw [if_neg (fun h => h2 (h1.symm.trans h)), h1]
    exact hbc
  · rw [if_neg h1] at hab
    rw [if_neg (fun h => h1 (h.trans h2.symm)), ← h2]
    exact hab
  · rw [if_neg h1] at hab
    rw [if_neg h2] at hbc
    by_cases h3 : a.1 = c.1
    · have hba : strLe b.1 a.1 := by rw [h3]; exact hbc
      exact absurd (strLe_antisymm hab hba) h1
    · rw [if_neg h3]
      exact strLe_trans hab hbc

/-- Ascending sort with a Boolean ≤, structurally recursive so that it
evaluates on concrete tables.  Models the (tie-order-unspecified) polars
`DataFrame.sort`. -/
def orderedInsert (le : α → α → Bool) (a : α) : List α → List α
  | [] => [a]
  | b :: bs => if le a b then a :: b :: bs else b :: orderedInsert le a bs

/-- Insertion sort over a Boolean ≤. -/
def sortBy (le : α → α → Bool) : List α → List α
  | [] => []
  | a :: as => orderedInsert le a (sortBy le as)

theorem orderedInsert_perm (le : α → α → Bool) (a : α) :
    ∀ l : List α, List.Perm (orderedInsert le a l) (a :: l)
  | [] => List.Perm.refl _
  | b :: bs => by
    simp only [orderedInsert]
    by_cases h : le a b
    · rw [if_pos h]
    · rw [if_neg h]
      exact ((orderedInsert_perm le a bs).cons b).trans (List.Perm.swap a b bs)

theorem sortBy_perm (le : α → α → Bool) : ∀ l : List α, List.Perm (sortBy le l) l
  | [] => List.Perm.refl _
  | a :: as =>
    ((orderedInsert_perm le a (sortBy le as)).trans ((sortBy_perm le as).cons a))

theorem mem_orderedInsert {le : α → α → Bool} {a x : α} {l : List α}
    (h : x ∈ orderedInsert le a l) : x = a ∨ x ∈ l := by
  have := (orderedInsert_perm le a l).mem_iff.mp h
  simpa using this

theorem orderedInsert_pairwise (le : α → α → Bool)
    (trans : ∀ a b c, le a b → le b c → le a c)
    (total : ∀ a b, le a b || le b a) (a : α) :
    ∀ l : List α, l.Pairwise (fun x y => le x y = true) →
      (orderedInsert le a l).Pairwise (fun x y => le x y = true)
  | [], _ => by simp [orderedInsert]
  | b :: bs, h => by
    rcases List.pairwise_cons.mp h with ⟨hb, hbs⟩
    simp only [orderedInsert]
    by_cases hab : le a b
    · rw [if_pos hab]
      refine List.pairwise_cons.mpr ⟨?_, h⟩
      intro x hx
      rcases List.mem_cons.mp hx with rfl | hx
      · exact hab
      · exact trans a b x hab (hb x hx)
    · rw [if_neg hab]
      have hba : le b a := by
        have htot := total a b
        simp only [Bool.or_eq_true] at htot
        rcases htot with h' | h'
        · exact absurd h' hab
        · exact h'
      refine List.pairwise_cons.mpr ⟨?_, orderedInsert_pairwise le trans total a bs hbs⟩
      intro x hx
      rcases mem_orderedInsert hx with rfl | hx
      · exact hba
      · exact hb x hx

theorem sortBy_pairwise (le : α → α → Bool)
    (trans : ∀ a b c, le a b → le b c → le a c)
    (total : ∀ a b, le a b || le b a) :
    ∀ l : List α, (sortBy le l).Pairwise (fun x y => le x y = true)
  | [] => List.Pairwise.nil
  | a :: as =>
    orderedInsert_pairwise le trans total a _ (sortBy_pairwise le trans total as)

/-- Sort key of the normalization sort:
`.sort(['seq_origin', 'GroupID', 'Position'])`. -/
def inputKeyLe (a b : InputRow) : Bool :=
  str3Le (a.seqOrigin, a.groupID, a.position) (b.seqOrigin, b.groupID, b.position)

/-- The same three-column key read off a normalized row. -/
def storedKeyLe (a b : StoredRow) : Bool :=
  str3Le (a.seqOrigin, a.groupID, a.position) (b.seqOrigin, b.groupID, b.position)

/-- Build one normalized row from a row index and a classified input row. -/
def mkStored (tbl : List InputRow) (p : Nat × InputRow) : StoredRow :=
  { groupID := p.2.groupID, position := p.2.position, seqOrigin := p.2.seqOrigin,
    sequence := p.2.sequence, inputCPM := p.2.inputCPM, fc := p.2.fc,
    legend := legendOf tbl p.2, index := p.1 }

/-- The normalization pipeline of `upload_data` (lines 135-143): project
to required + FC columns, sort by (origin, group, position), classify and
attach `Legend`, and add a fresh row index. -/
def normalize (tbl : List InputRow) : List StoredRow :=
  ((sortBy inputKeyLe tbl).enum).map (mkStored tbl)

/-- Whole upload step at the schema + rows level: validation error, or the
normalized table. -/
def uploadData (cols : List String) (rows : List InputRow) :
    Except ValidationError (List StoredRow) :=
  match uploadValidate cols with
  | some e => .error e
  | none => .ok (normalize rows)

/-- The `data-store` contents an upload outcome produces: errors store
an empty table. -/
def storedOf (r : Except ValidationError (List StoredRow)) : List StoredRow :=
  match r with
  | .error _ => []
  | .ok t => t

/-! ### Selection tracker (`update_graph`, `app.py` lines 179-203) -/

/-- Single-point click handling: with erase on, drop the clicked sequence
from the selection (if the selection exists); with erase off, append it
unless already selected. -/
def applyClick (selected : Option (List String)) (seq : String) (erase : Bool) :
    Option (List String) :=
  if erase then
    match selected with
    | none => none
    | some s => some (s.filter (fun x => decide (x ≠ seq)))
  else
    match selected with
    | none => some [seq]
    | some s => if seq ∈ s then some s else some (s ++ [seq])

/-- Lasso (multi-point) handling: with erase on, drop every lassoed
sequence; with erase off, append the ones not already selected. -/
def applyMulti (selected : Option (List String)) (seqs : List String) (erase : Bool) :
    Option (List String) :=
  if erase then
    match selected with
    | none => none
    | some s => some (s.filter (fun x => decide (x ∉ seqs)))
  else
    match selected with
    | none => some seqs
    | some s => some (s ++ seqs.filter (fun x => decide (x ∉ s)))

/-! ### View projector (`update_graph`, `app.py` lines 205-257) -/

/-- Override `Legend` to `"selection"` on the rows whose sequence is
selected (lines 209-210). -/
def overrideLegend (tbl : List StoredRow) (sel : List String) : List StoredRow :=
  tbl.map (fun r => if r.sequence ∈ sel then { r with legend := "selection" } else r)

/-- The export table (lines 212-218): rows whose (overridden) legend is
`"selection"`, projected to the required + FC columns. -/
def exportRows (tbl : List StoredRow) (selected : Option (List String)) :
    List CoreRow :=
  match selected with
  | none => []
  | some sel =>
    ((overrideLegend tbl sel).filter (fun r => decide (r.legend = "selection"))).map
      StoredRow.core

/-- A plotted value of the `pl.Float32` plot column, with its IEEE
classification kept exact: `num q` is the finite float32 value `q`
(for the Linear scale, the binary32 rounding of the raw value), `sqrtNN q`
the float32 cast of the float64 `sqrt q` for `q ≥ 0`, `log10Pos q` the
finite float32 cast of the float64 `log10 q` for `q > 0` (always finite,
since `|log10|` of a finite positive double is below 325). -/
inductive PlotVal where
  | num (q : ℚ)
  | sqrtNN (q : ℚ)
  | log10Pos (q : ℚ)
  | posInf
  | negInf
  | nan
deriving DecidableEq, Repr

def PlotVal.isFinite : PlotVal → Bool
  | .posInf => false
  | .negInf => false
  | .nan => false
  | _ => true

/-- Number of binary digits of a natural number (`0` for `0`), by fuelled
halving — fuel `n` always suffices. -/
def bitlenAux : Nat → Nat → Nat
  | 0, _ => 0
  | fuel + 1, n => if n = 0 then 0 else bitlenAux fuel (n / 2) + 1

def bitlen (n : Nat) : Nat :=
  bitlenAux n n

/-- Round half to even: the integer nearest to `x`, ties going to the
even integer — IEEE-754 default rounding applied at integer scale. -/
def rhe (x : ℚ) : Int :=
  if x - ⌊x⌋ < 1 / 2 then ⌊x⌋
  else if 1 / 2 < x - ⌊x⌋ then ⌊x⌋ + 1
  else if ⌊x⌋ % 2 = 0 then ⌊x⌋ else ⌊x⌋ + 1

/-- `⌊log₂ |q|⌋` for `q ≠ 0`, computed from the bit lengths of numerator
and denominator (which bracket `|q|` within a factor of two) plus one
comparison. -/
def ratExp (q : ℚ) : Int :=
  if (2 : ℚ) ^ ((bitlen q.num.natAbs : Int) - (bitlen q.den : Int)) ≤ |q| then
    (bitlen q.num.natAbs : Int) - (bitlen q.den : Int)
  else
    (bitlen q.num.natAbs : Int) - (bitlen q.den : Int) - 1

/-- Exponent of the binary32 rounding quantum at magnitude `q`: normal
numbers carry a 24-bit significand, subnormals bottom out at `2^-149`. -/
def f32Ulp (q : ℚ) : Int :=
  if ratExp q < -126 then -149 else ratExp q - 23

/-- Round-to-nearest-even onto the binary32 grid (exponent unbounded):
the value a float64 is taken to by a float32 conversion, before overflow
is accounted for. -/
def roundF32 (q : ℚ) : ℚ :=
  if q = 0 then 0 else (rhe (q / 2 ^ f32Ulp q) : ℚ) * 2 ^ f32Ulp q

/-- The `pl.Float32` cast of a stored (float64) value, exactly: round to
nearest-even on the binary32 grid, overflowing to ±∞ from `2^128`. -/
def f32Cast (q : ℚ) : PlotVal :=
  if (2 : ℚ) ^ (128 : ℕ) ≤ roundF32 q then .posInf
  else if roundF32 q ≤ -(2 : ℚ) ^ (128 : ℕ) then .negInf
  else .num (roundF32 q)

/-- The scale transform of lines 221-242 combined with the `pl.Float32`
cast of the plot column at lines 244-253, applied to one value: `sqrt` of
a negative is NaN, `log10` of a negative is NaN, `log10 0` is -inf, and
any scale other than the two named ones plots the raw value, so its
plotted column is exactly the float32 rounding of the raw value. -/
def applyScale (scale : String) (q : ℚ) : PlotVal :=
  if scale = "Square Root" then
    if q < 0 then .nan else .sqrtNN q
  else if scale = "Log10" then
    if q < 0 then .nan else if q = 0 then .negInf else .log10Pos q
  else
    f32Cast q

/-- A row of the stacked plotting table: required columns + the plotted
column + `Legend` + `Target` (the measurement column it came from). -/
structure PlotRow where
  index : Nat
  groupID : String
  position : String
  seqOrigin : String
  sequence : String
  inputCPM : Int
  plotted : PlotVal
  legend : String
  target : String
deriving DecidableEq, Repr

def mkPlotRow (scale : String) (y : String) (r : StoredRow) : PlotRow :=
  { index := r.index, groupID := r.groupID, position := r.position,
    seqOrigin := r.seqOrigin, sequence := r.sequence, inputCPM := r.inputCPM,
    plotted := applyScale scale (fcVal r y), legend := r.legend, target := y }

/-- Lines 221-242: one sub-table per requested measurement column, each
tagged with `Target`, stacked with `pl.concat`. -/
def stackScale (tbl : List StoredRow) (yCols : List String) (scale : String) :
    List PlotRow :=
  yCols.flatMap (fun y => tbl.map (mkPlotRow scale y))

/-- `is_selection` as a sort key (line 255). -/
def isSelNat (r : PlotRow) : Nat := if r.legend = "selection" then 1 else 0

/-- `is_parent` as a sort key (line 254). -/
def isParentNat (r : PlotRow) : Nat := if r.legend = "parent" then 1 else 0

/-- Physical categorical code of a legend value: position of its first
appearance in the column (`Legend` is cast to `pl.Categorical` before the
sort, and polars orders categoricals physically by default). -/
def legendCode (tbl : List PlotRow) (s : String) : Nat :=
  (tbl.map (fun r => r.legend)).indexOf s

def plotKey (tbl : List PlotRow) (r : PlotRow) : Nat × Nat × Nat :=
  (isSelNat r, isParentNat r, legendCode tbl r.legend)

def plotLe (tbl : List PlotRow) (a b : PlotRow) : Bool :=
  lex3Le (plotKey tbl a) (plotKey tbl b)

/-- The stacking-order sort of line 256:
`.sort(['is_selection', 'is_parent', 'Legend'])`. -/
def sortPlot (tbl : List PlotRow) : List PlotRow :=
  sortBy (plotLe tbl) tbl

/-- Display priority of a legend category. -/
def priority (r : PlotRow) : Nat :=
  if r.legend = "selection" then 2 else if r.legend = "parent" then 1 else 0

/-- Outputs of `update_graph` that the embedding tracks: the table behind
the figure, the written-back selection, and the export table.  The
`clickData` output is reset to `None` on every call and is not modelled. -/
structure GraphOut where
  plotTable : List PlotRow
  selectedOut : Option (List String)
  exportTable : List CoreRow
deriving DecidableEq, Repr

/-- The `update_graph` callback (lines 168-277): guard on missing data or
missing column choice, apply click then lasso to the selection, override
legends, compute the export subset, stack per measurement column under
the chosen scale, and sort for stacking order. -/
def updateGraph (storeData : List StoredRow) (yCols : List String) (scale : String)
    (selected : Option (List String)) (clickData : Option String)
    (selectedData : Option (List String)) (erase : Bool) : GraphOut :=
  if storeData = [] ∨ yCols = [] then
    { plotTable := [], selectedOut := none, exportTable := [] }
  else
    let sel1 := match clickData with
      | none => selected
      | some seq => applyClick selected seq erase
    let sel2 := match selectedData with
      | none => sel1
      | some seqs => applyMulti sel1 seqs erase
    let tbl := match sel2 with
      | none => storeData
      | some s => overrideLegend storeData s
    { plotTable := sortPlot (stackScale tbl yCols scale),
      selectedOut := sel2,
      exportTable := exportRows storeData sel2 }

/-! ### Rank annotator (`src/pages/r3.py`, `update_graph` lines 239-245) -/

/-- A row of the R3 plot table at the ranking step. -/
structure R3Row where
  groupID : String
  position : String
  seqOrigin : String
  sequence : String
  inputCPM : Int
  legend : String
deriving DecidableEq, Repr

/-- Descending comparison on abundance: `.sort('Input_CPM', descending=True)`. -/
def cpmDescLe (a b : R3Row) : Bool := decide (b.inputCPM ≤ a.inputCPM)

/-- `sorted(plot_data['seq_origin'].unique().to_list())`. -/
def originsSorted (tbl : List R3Row) : List String :=
  sortBy strLe (tbl.map (fun r => r.seqOrigin)).dedup

/-- The R3 ranking step: partition by origin (in sorted origin order),
sort each partition descending by `Input_CPM`, attach a fresh 0-based row
index (`with_row_index`), and concatenate. -/
def rankAnnotate (tbl : List R3Row) : List (Nat × R3Row) :=
  (originsSorted tbl).flatMap
    (fun o => (sortBy cpmDescLe (tbl.filter (fun r => decide (r.seqOrigin = o)))).enum)

/-! ### Helper lemmas -/

theorem find?_eq_of_unique {p : String → Bool} :
    ∀ (l : List String) (c : String), c ∈ l → p c →
      (∀ c' ∈ l, p c' → c' = c) → l.find? p = some c
  | [], c, h, _, _ => absurd h (List.not_mem_nil c)
  | a :: as, c, h, hp, huniq => by
    by_cases ha : p a
    · have hac : a = c := huniq a (List.mem_cons_self a as) ha
      rw [List.find?_cons_of_pos _ ha, hac]
    · have hc : c ∈ as := by
        rcases List.mem_cons.mp h with rfl | h2
        · exact absurd hp ha
        · exact h2
      rw [List.find?_cons_of_neg _ ha]
      exact find?_eq_of_unique as c hc hp
        (fun c' h' hp' => huniq c' (List.mem_cons_of_mem a h') hp')

theorem str3Le_trans_rows (a b c : InputRow)
    (h1 : inputKeyLe a b) (h2 : inputKeyLe b c) : inputKeyLe a c :=
  str3Le_trans _ _ _ h1 h2

theorem inputKeyLe_total (a b : InputRow) : inputKeyLe a b || inputKeyLe b a :=
  str3Le_total _ _

/-! ### Claim theorems -/

/-- C2: with erase on, a click removes the clicked sequence from the
selection if present and is a no-op otherwise; with erase off it appends
the sequence if absent and is a no-op if present (no toggle-removal); and
the concrete `"AAA"` scenario from the empty selection behaves
accordingly. -/
theorem applyClick_spec (s : List String) (seq : String) :
    (∀ t, applyClick (some s) seq true = some t → ∀ x, x ∈ t ↔ (x ∈ s ∧ x ≠ seq)) ∧
    (seq ∉ s → applyClick (some s) seq true = some s) ∧
    (seq ∉ s → applyClick (some s) seq false = some (s ++ [seq])) ∧
    (seq ∈ s → applyClick (some s) seq false = some s) ∧
    applyClick none seq true = none ∧
    applyClick none seq false = some [seq] ∧
    applyClick (some []) "AAA" false = some ["AAA"] ∧
    applyClick (some ["AAA"]) "AAA" false = some ["AAA"] ∧
    applyClick (some ["AAA"]) "AAA" true = some [] := by
  refine ⟨?_, ?_, ?_, ?_, rfl, rfl, by decide, by decide, by decide⟩
  · intro t ht x
    simp only [applyClick, if_true] at ht
    injection ht with ht
    subst ht
    simp [List.mem_filter]
  · intro h
    simp only [applyClick, if_true]
    congr 1
    refine List.filter_eq_self.mpr ?_
    intro a ha
    simp only [decide_eq_true_eq]
    exact fun heq => h (heq ▸ ha)
  · intro h
    simp [applyClick, h]
  · intro h
    simp [applyClick, h]

/-- C2 witness: the theorem applied at a concrete selection and sequence. -/
theorem applyClick_spec_witness :
    ("BBB" : String) ∉ (["AAA"] : List String) ∧
    applyClick (some ["AAA"]) "BBB" false = some ["AAA", "BBB"] := by
  refine ⟨by decide, ?_⟩
  exact (applyClick_spec ["AAA"] "BBB").2.2.1 (by decide)

/-- C6: a schema missing a required column is rejected with a
`missingColumn` error naming a missing required column (the first in the
required order) and stores no table — classification is never reached;
when `c` is the only missing required column, the error names `c`
itself. -/
theorem missing_column_spec (cols : List String) (rows : List InputRow) (c : String)
    (hc : c ∈ requiredColumns) (hmiss : c ∉ cols) :
    (∃ c', c' ∈ requiredColumns ∧ c' ∉ cols ∧
      uploadData cols rows = .error (.missingColumn c')) ∧
    storedOf (uploadData cols rows) = [] ∧
    ((∀ c' ∈ requiredColumns, c' ∉ cols → c' = c) →
      uploadData cols rows = .error (.missingColumn c)) := by
  have hsome : (requiredColumns.find? (fun c' => !(cols.contains c'))).isSome := by
    refine List.find?_isSome.mpr ⟨c, hc, ?_⟩
    simp [hmiss]
  obtain ⟨c'', hfind⟩ := Option.isSome_iff_exists.mp hsome
  have hmem := List.mem_of_find?_eq_some hfind
  have hpred : c'' ∉ cols := by
    have h2 := List.find?_some hfind
    simpa using h2
  have hfind1 : firstMissing cols = some c'' := hfind
  have hres : uploadData cols rows = .error (.missingColumn c'') := by
    unfold uploadData uploadValidate
    rw [hfind1]
  refine ⟨⟨c'', hmem, hpred, hres⟩, by rw [hres]; rfl, ?_⟩
  intro huniq
  have hfind2 : firstMissing cols = some c := by
    refine find?_eq_of_unique requiredColumns c hc ?_ ?_
    · simp [hmiss]
    · intro c' h' hp'
      exact huniq c' h' (by simpa using hp')
  unfold uploadData uploadValidate
  rw [hfind2]

/-- C6 witness: a schema missing only `sequence` produces
`missingColumn "sequence"` and an empty store. -/
theorem missing_column_spec_witness :
    uploadData ["GroupID", "Position", "seq_origin", "Input_CPM", "FC1"] []
      = .error (.missingColumn "sequence") ∧
    storedOf (uploadData ["GroupID", "Position", "seq_origin", "Input_CPM", "FC1"] [])
      = [] := by
  have h := missing_column_spec ["GroupID", "Position", "seq_origin", "Input_CPM", "FC1"]
    [] "sequence" (by decide) (by decide)
  exact ⟨h.2.2 (by decide), h.2.1⟩

/-- C10: when the stored table is empty or no measurement column is
chosen, `update_graph` returns an empty figure table, an empty export
table, and writes `None` back to the persisted selection, whatever
selection was previously stored. -/
theorem updateGraph_empty_guard (storeData : List StoredRow) (yCols : List String)
    (scale : String) (selected : Option (List String)) (clickData : Option String)
    (selectedData : Option (List String)) (erase : Bool)
    (h : storeData = [] ∨ yCols = []) :
    updateGraph storeData yCols scale selected clickData selectedData erase
      = ⟨[], none, []⟩ := by
  unfold updateGraph
  rw [if_pos h]

/-- C10 witness: the guard applied with an empty store and a previously
persisted non-empty selection. -/
theorem updateGraph_empty_guard_witness :
    updateGraph [] ["FC1"] "Log10" (some ["AAA"]) none none false = ⟨[], none, []⟩ :=
  updateGraph_empty_guard [] ["FC1"] "Log10" (some ["AAA"]) none none false (Or.inl rfl)

/-- C8: under Log10, a row whose measurement value is non-positive still
appears in the final (sorted, stacked) plot table, with a non-finite
plotted value that is negative infinity when the value is zero; no error
is raised and no row is dropped. -/
theorem log10_nonpositive_total (tbl : List StoredRow) (yCols : List String)
    (y : String) (r : StoredRow) (hr : r ∈ tbl) (hy : y ∈ yCols)
    (hq : fcVal r y ≤ 0) :
    ∃ pr ∈ sortPlot (stackScale tbl yCols "Log10"),
      pr.index = r.index ∧ pr.sequence = r.sequence ∧ pr.target = y ∧
      pr.plotted.isFinite = false ∧
      (fcVal r y = 0 → pr.plotted = PlotVal.negInf) := by
  refine ⟨mkPlotRow "Log10" y r, ?_, rfl, rfl, rfl, ?_, ?_⟩
  · unfold sortPlot
    refine (sortBy_perm _ _).mem_iff.mpr ?_
    simp only [stackScale, List.mem_flatMap, List.mem_map]
    exact ⟨y, hy, r, hr, rfl⟩
  · show (applyScale "Log10" (fcVal r y)).isFinite = false
    unfold applyScale
    rw [if_neg (by decide), if_pos rfl]
    rcases lt_or_eq_of_le hq with hlt | heq
    · rw [if_pos hlt]
      rfl
    · rw [if_neg (by rw [heq]; exact lt_irrefl 0), if_pos heq]
      rfl
  · intro h0
    show applyScale "Log10" (fcVal r y) = PlotVal.negInf
    unfold applyScale
    rw [if_neg (by decide), if_pos rfl, if_neg (by rw [h0]; exact lt_irrefl 0), if_pos h0]

/-- C8 witness: a zero measurement value under Log10 on a one-row table. -/
theorem log10_nonpositive_total_witness :
    ∃ pr ∈ sortPlot (stackScale
        [(⟨"g", "0Z", "lib", "AAA", 5, [("FC1", 0)], "lib", 0⟩ : StoredRow)]
        ["FC1"] "Log10"),
      pr.index = 0 ∧ pr.sequence = "AAA" ∧ pr.target = "FC1" ∧
      pr.plotted.isFinite = false ∧
      (fcVal (⟨"g", "0Z", "lib", "AAA", 5, [("FC1", 0)], "lib", 0⟩ : StoredRow) "FC1" = 0 →
        pr.plotted = PlotVal.negInf) := by
  have h := log10_nonpositive_total
    [⟨"g", "0Z", "lib", "AAA", 5, [("FC1", 0)], "lib", 0⟩] ["FC1"] "FC1"
    ⟨"g", "0Z", "lib", "AAA", 5, [("FC1", 0)], "lib", 0⟩
    (by decide) (by decide) (by decide)
  simpa using h

end HoverPlot

namespace HoverPlot

/-- C1 (amended): for any row whose origin value is not itself the
literal `"parent"`, the classifier assigns legend `"parent"` iff the
row's group has more than one member and its position is `"0Z"`, and
assigns the row's origin otherwise.  (A row whose origin is literally
`"parent"` receives legend `"parent"` without satisfying the condition —
see the counterexample.) -/
theorem legend_parent_iff (tbl : List InputRow) (r : InputRow)
    (h : r.seqOrigin ≠ "parent") :
    (legendOf tbl r = "parent" ↔ (groupCount tbl r.groupID > 1 ∧ r.position = "0Z")) ∧
    (¬(groupCount tbl r.groupID > 1 ∧ r.position = "0Z") → legendOf tbl r = r.seqOrigin) := by
  unfold legendOf
  by_cases hc : groupCount tbl r.groupID > 1 ∧ r.position = "0Z"
  · rw [if_pos hc]
    exact ⟨⟨fun _ => hc, fun _ => rfl⟩, fun h2 => absurd hc h2⟩
  · rw [if_neg hc]
    exact ⟨⟨fun he => absurd he h, fun h2 => absurd h2 hc⟩, fun _ => rfl⟩

/-- C1 witness: the amended theorem applied to a two-row group on a
validator-accepted table. -/
theorem legend_parent_iff_witness :
    (("lib" : String) ≠ "parent") ∧
    (legendOf [⟨"g1", "0Z", "lib", "AAA", 5, [("FC1", 2)], []⟩,
               ⟨"g1", "1A", "lib", "BBB", 3, [("FC1", 1)], []⟩]
        ⟨"g1", "0Z", "lib", "AAA", 5, [("FC1", 2)], []⟩ = "parent" ↔
      (groupCount [⟨"g1", "0Z", "lib", "AAA", 5, [("FC1", 2)], []⟩,
                   ⟨"g1", "1A", "lib", "BBB", 3, [("FC1", 1)], []⟩] "g1" > 1 ∧
        ("0Z" : String) = "0Z")) := by
  refine ⟨by decide, ?_⟩
  exact (legend_parent_iff _ _ (by decide)).1

/-- C1 counterexample: a single-row table whose origin value is the
literal `"parent"` passes validation, its row's group occurs once and its
position is not `"0Z"`, yet the stored legend is `"parent"` — refuting
the claimed "only if" direction. -/
theorem legend_parent_iff_counterexample :
    uploadValidate ["GroupID", "Position", "seq_origin", "sequence", "Input_CPM", "FC1"]
        = none ∧
    (normalize [⟨"g", "1A", "parent", "AAA", 1, [("FC1", 2)], []⟩]).map
        (fun r => r.legend) = ["parent"] ∧
    ¬(groupCount [⟨"g", "1A", "parent", "AAA", 1, [("FC1", 2)], []⟩] "g" > 1 ∧
      ("1A" : String) = "0Z") := by
  decide

end HoverPlot

namespace HoverPlot

/-- C5: normalization projects every row to the required + FC columns
(dropping extraneous columns and keeping `Legend` alongside — the
`StoredRow` shape), drops or adds no row, sorts ascending by
(origin, group, position) lexicographically, and reindexes rows 0..n-1
in that canonical order. -/
theorem normalize_spec (tbl : List InputRow) :
    List.Perm ((normalize tbl).map StoredRow.core) (tbl.map InputRow.core) ∧
    (normalize tbl).Pairwise (fun a b => storedKeyLe a b = true) ∧
    (normalize tbl).map (fun r => r.index) = List.range tbl.length := by
  have hmapcore : (normalize tbl).map StoredRow.core
      = (sortBy inputKeyLe tbl).map InputRow.core := by
    unfold normalize
    rw [List.map_map]
    rw [show (StoredRow.core ∘ mkStored tbl) = (InputRow.core ∘ Prod.snd) from rfl]
    rw [← List.map_map, List.enum_map_snd]
  refine ⟨?_, ?_, ?_⟩
  · rw [hmapcore]
    exact (sortBy_perm inputKeyLe tbl).map InputRow.core
  · unfold normalize
    rw [List.pairwise_map]
    have hsorted := sortBy_pairwise inputKeyLe str3Le_trans_rows inputKeyLe_total tbl
    have hiff := (List.pairwise_map (f := Prod.snd)
      (R := fun a b : InputRow => inputKeyLe a b = true)
      (l := (sortBy inputKeyLe tbl).enum))
    rw [List.enum_map_snd] at hiff
    exact hiff.mp hsorted
  · unfold normalize
    rw [List.map_map]
    rw [show ((fun r : StoredRow => r.index) ∘ mkStored tbl) = Prod.fst from rfl]
    rw [List.enum_map_fst, (sortBy_perm inputKeyLe tbl).length_eq]

end HoverPlot

namespace HoverPlot

theorem priority_eq (r : PlotRow) : priority r = 2 * isSelNat r + isParentNat r := by
  unfold priority isSelNat isParentNat
  by_cases h1 : r.legend = "selection"
  · rw [h1]
    decide
  · by_cases h2 : r.legend = "parent"
    · rw [h2]
      decide
    · simp only [if_neg h1, if_neg h2]

theorem isParentNat_le_one (r : PlotRow) : isParentNat r ≤ 1 := by
  unfold isParentNat
  split <;> decide

theorem plotLe_priority (tbl : List PlotRow) (a b : PlotRow)
    (h : plotLe tbl a b = true) : priority a ≤ priority b := by
  have ha := priority_eq a
  have hb := priority_eq b
  have hpa := isParentNat_le_one a
  have hpb := isParentNat_le_one b
  simp only [plotLe, lex3Le, plotKey, decide_eq_true_eq] at h
  rcases h with h | ⟨h1, h2 | ⟨h2, _⟩⟩ <;> omega

/-- C4 (amended): the stacking sort reorders the projected rows by the
ascending lexicographic key (`is_selection`, `is_parent`, legend code):
the output is a permutation of the input in which every parent-legend row
follows every ordinary row and every selection-legend row follows both
(priority ordinary=0 < parent=1 < selection=2).  Rows of equal priority
are NOT guaranteed to keep their prior relative order, because the sort
tie-breaks on the legend value — see the counterexample. -/
theorem stacking_order (tbl : List PlotRow) :
    List.Perm (sortPlot tbl) tbl ∧
    (sortPlot tbl).Pairwise (fun a b => priority a ≤ priority b) := by
  refine ⟨sortBy_perm _ tbl, ?_⟩
  have hp := sortBy_pairwise (plotLe tbl)
    (fun a b c h1 h2 => lex3Le_trans _ _ _ h1 h2)
    (fun a b => lex3Le_total _ _) tbl
  exact hp.imp (fun h => plotLe_priority tbl _ _ h)

/-- C4 counterexample: three ordinary (equal-priority) rows with legends
b, a, b.  The sort groups equal legends together (tie-breaking on the
legend column), so the second and third rows swap their relative order,
refuting "rows of equal priority preserve their prior relative order". -/
theorem stacking_order_counterexample :
    priority (⟨1, "g2", "1A", "a", "S2", 1, .num 1, "a", "FC1"⟩ : PlotRow)
      = priority (⟨2, "g3", "1A", "b", "S3", 1, .num 1, "b", "FC1"⟩ : PlotRow) ∧
    sortPlot [⟨0, "g1", "1A", "b", "S1", 1, .num 1, "b", "FC1"⟩,
              ⟨1, "g2", "1A", "a", "S2", 1, .num 1, "a", "FC1"⟩,
              ⟨2, "g3", "1A", "b", "S3", 1, .num 1, "b", "FC1"⟩]
      = [⟨0, "g1", "1A", "b", "S1", 1, .num 1, "b", "FC1"⟩,
         ⟨2, "g3", "1A", "b", "S3", 1, .num 1, "b", "FC1"⟩,
         ⟨1, "g2", "1A", "a", "S2", 1, .num 1, "a", "FC1"⟩] := by
  decide

end HoverPlot

namespace HoverPlot

/-- C3 (amended): provided no stored row's legend is already the literal
`"selection"` (i.e. no origin value collides with it), the export table of
`update_graph` under selection set `sel` is exactly the stored rows whose
sequence is selected — one export row per stored row, however many
measurement columns are requested — projected to required + FC columns
(`CoreRow`; scale helper columns excluded); hence its sequence set is the
selection set intersected with the table's sequence set. -/
theorem export_consistency (storeData : List StoredRow) (yCols : List String)
    (scale : String) (sel : List String) (erase : Bool)
    (hstore : storeData ≠ []) (hy : yCols ≠ [])
    (hleg : ∀ r ∈ storeData, r.legend ≠ "selection") :
    (updateGraph storeData yCols scale (some sel) none none erase).exportTable
      = (storeData.filter (fun r => decide (r.sequence ∈ sel))).map StoredRow.core ∧
    (∀ q, (∃ e ∈ (updateGraph storeData yCols scale (some sel) none none erase).exportTable,
        e.sequence = q) ↔ (q ∈ sel ∧ ∃ r ∈ storeData, r.sequence = q)) ∧
    (updateGraph storeData yCols scale (some sel) none none erase).selectedOut
      = some sel := by
  have hguard : ¬(storeData = [] ∨ yCols = []) := by
    rintro (h | h)
    · exact hstore h
    · exact hy h
  have hexp : (updateGraph storeData yCols scale (some sel) none none erase).exportTable
      = exportRows storeData (some sel) := by
    unfold updateGraph
    rw [if_neg hguard]
  have hselout : (updateGraph storeData yCols scale (some sel) none none erase).selectedOut
      = some sel := by
    unfold updateGraph
    rw [if_neg hguard]
  have hcore : ∀ a ∈ storeData.filter
      ((fun r => decide (r.legend = "selection")) ∘
        (fun r => if r.sequence ∈ sel then { r with legend := "selection" } else r)),
      (StoredRow.core ∘
        (fun r : StoredRow =>
          if r.sequence ∈ sel then { r with legend := "selection" } else r)) a
        = StoredRow.core a := by
    intro a _
    by_cases h : a.sequence ∈ sel
    · simp only [Function.comp_apply, if_pos h]
      rfl
    · simp only [Function.comp_apply, if_neg h]
  have hpred : ∀ r ∈ storeData,
      ((fun r => decide (r.legend = "selection")) ∘
        (fun r : StoredRow =>
          if r.sequence ∈ sel then { r with legend := "selection" } else r)) r
        = (fun r : StoredRow => decide (r.sequence ∈ sel)) r := by
    intro r hr
    by_cases h : r.sequence ∈ sel
    · simp [h]
    · simp [h, hleg r hr]
  have hfilter : exportRows storeData (some sel)
      = (storeData.filter (fun r => decide (r.sequence ∈ sel))).map StoredRow.core := by
    show ((storeData.map
        (fun r => if r.sequence ∈ sel then { r with legend := "selection" } else r)).filter
          (fun r => decide (r.legend = "selection"))).map StoredRow.core = _
    rw [List.filter_map, List.map_map, List.map_congr_left hcore,
      List.filter_congr hpred]
  have hmain : (updateGraph storeData yCols scale (some sel) none none erase).exportTable
      = (storeData.filter (fun r => decide (r.sequence ∈ sel))).map StoredRow.core :=
    hexp.trans hfilter
  refine ⟨hmain, ?_, hselout⟩
  intro q
  rw [hmain]
  constructor
  · rintro ⟨e, he, rfl⟩
    simp only [List.mem_map, List.mem_filter, decide_eq_true_eq] at he
    obtain ⟨r, ⟨hr, hin⟩, rfl⟩ := he
    exact ⟨hin, r, hr, rfl⟩
  · rintro ⟨hq, r, hr, rfl⟩
    refine ⟨StoredRow.core r, ?_, rfl⟩
    simp only [List.mem_map, List.mem_filter, decide_eq_true_eq]
    exact ⟨r, ⟨hr, hq⟩, rfl⟩

/-- C3 witness: the theorem applied on a two-row table with one selected
sequence. -/
theorem export_consistency_witness :
    (updateGraph [⟨"g1", "0Z", "lib", "AAA", 5, [("FC1", 2)], "lib", 0⟩,
                  ⟨"g2", "1A", "lib", "BBB", 3, [("FC1", 1)], "lib", 1⟩]
        ["FC1"] "Log10" (some ["BBB"]) none none false).exportTable
      = [⟨"g2", "1A", "lib", "BBB", 3, [("FC1", 1)]⟩] := by
  have h := (export_consistency
    [⟨"g1", "0Z", "lib", "AAA", 5, [("FC1", 2)], "lib", 0⟩,
     ⟨"g2", "1A", "lib", "BBB", 3, [("FC1", 1)], "lib", 1⟩]
    ["FC1"] "Log10" ["BBB"] false (by decide) (by decide) (by decide)).1
  rw [h]
  decide

/-- C3 counterexample: a validator-accepted one-row table whose origin
value is the literal `"selection"`.  With current selection set ∅ (a
non-null empty selection), the export table still contains the row's
sequence `"AAA"`, so the export's sequence set is not the selection set
intersected with the table's sequences. -/
theorem export_consistency_counterexample :
    ((updateGraph (normalize [⟨"g", "1A", "selection", "AAA", 1, [("FC1", 2)], []⟩])
        ["FC1"] "Log10" (some []) none none false).exportTable).map
          (fun r => r.sequence) = ["AAA"] ∧
    ("AAA" : String) ∉ ([] : List String) := by
  decide

end HoverPlot

namespace HoverPlot

theorem cpmDescLe_trans (a b c : R3Row) (h1 : cpmDescLe a b) (h2 : cpmDescLe b c) :
    cpmDescLe a c := by
  simp only [cpmDescLe, decide_eq_true_eq] at *
  exact le_trans h2 h1

theorem cpmDescLe_total (a b : R3Row) : cpmDescLe a b || cpmDescLe b a := by
  simp only [cpmDescLe, Bool.or_eq_true, decide_eq_true_eq]
  exact le_total b.inputCPM a.inputCPM

theorem flatMap_eq_of_single {β : Type} (g : String → List β) :
    ∀ (l : List String) (o : String), l.Nodup → o ∈ l →
      (∀ o' ∈ l, o' ≠ o → g o' = []) → l.flatMap g = g o
  | [], o, _, ho, _ => absurd ho (List.not_mem_nil o)
  | a :: as, o, hnd, ho, hz => by
    rcases List.mem_cons.mp ho with rfl | ho2
    · have hz2 : ∀ o' ∈ as, g o' = [] := by
        intro o' h'
        refine hz o' (List.mem_cons_of_mem _ h') ?_
        intro he
        subst he
        exact (List.nodup_cons.mp hnd).1 h'
      rw [List.flatMap_cons, List.flatMap_eq_nil_iff.mpr hz2, List.append_nil]
    · have hao : a ≠ o := by
        intro he
        subst he
        exact (List.nodup_cons.mp hnd).1 ho2
      rw [List.flatMap_cons, hz a (List.mem_cons_self a as) hao, List.nil_append]
      exact flatMap_eq_of_single g as o (List.nodup_cons.mp hnd).2 ho2
        (fun o' h' hne => hz o' (List.mem_cons_of_mem a h') hne)

theorem snd_mem_of_mem_enum {β : Type} {p : Nat × β} {l : List β} (h : p ∈ l.enum) :
    p.2 ∈ l := by
  have h2 := List.mem_map_of_mem Prod.snd h
  rwa [List.enum_map_snd] at h2

/-- C9: in the R3 variant, the ranked table's rows of any origin `o`
occurring in the table are exactly the table's `o`-rows sorted descending
by abundance (`Input_CPM`) and paired with the dense 0-based rank indices
0..n-1 that the figure uses as x-coordinates. -/
theorem rank_annotate_spec (tbl : List R3Row) (o : String)
    (ho : o ∈ tbl.map (fun r => r.seqOrigin)) :
    (rankAnnotate tbl).filter (fun p => decide (p.2.seqOrigin = o))
      = (sortBy cpmDescLe (tbl.filter (fun r => decide (r.seqOrigin = o)))).enum ∧
    ((rankAnnotate tbl).filter (fun p => decide (p.2.seqOrigin = o))).map Prod.fst
      = List.range (tbl.filter (fun r => decide (r.seqOrigin = o))).length ∧
    ((rankAnnotate tbl).filter (fun p => decide (p.2.seqOrigin = o))).Pairwise
      (fun a b => b.2.inputCPM ≤ a.2.inputCPM) := by
  have hmem : ∀ o' : String, ∀ p : Nat × R3Row,
      p ∈ (sortBy cpmDescLe (tbl.filter (fun r => decide (r.seqOrigin = o')))).enum →
        p.2.seqOrigin = o' := by
    intro o' p hp
    have h2 := snd_mem_of_mem_enum hp
    have h3 := (sortBy_perm cpmDescLe _).mem_iff.mp h2
    have h4 := List.mem_filter.mp h3
    exact of_decide_eq_true h4.2
  have hpart : (rankAnnotate tbl).filter (fun p => decide (p.2.seqOrigin = o))
      = (sortBy cpmDescLe (tbl.filter (fun r => decide (r.seqOrigin = o)))).enum := by
    unfold rankAnnotate
    rw [List.filter_flatMap]
    have hnd : (originsSorted tbl).Nodup :=
      (sortBy_perm strLe _).symm.nodup (List.nodup_dedup _)
    have hoin : o ∈ originsSorted tbl :=
      (sortBy_perm strLe _).symm.mem_iff.mp (List.mem_dedup.mpr ho)
    have hzero : ∀ o' ∈ originsSorted tbl, o' ≠ o →
        ((sortBy cpmDescLe (tbl.filter (fun r => decide (r.seqOrigin = o')))).enum).filter
          (fun p => decide (p.2.seqOrigin = o)) = [] := by
      intro o' _ hne
      refine List.filter_eq_nil_iff.mpr ?_
      intro p hp
      simp only [decide_eq_true_eq]
      rw [hmem o' p hp]
      exact fun h => hne h
    rw [flatMap_eq_of_single _ (originsSorted tbl) o hnd hoin hzero]
    refine List.filter_eq_self.mpr ?_
    intro p hp
    simp only [decide_eq_true_eq]
    exact hmem o p hp
  refine ⟨hpart, ?_, ?_⟩
  · rw [hpart, List.enum_map_fst, (sortBy_perm cpmDescLe _).length_eq]
  · rw [hpart]
    have hs := sortBy_pairwise cpmDescLe cpmDescLe_trans cpmDescLe_total
      (tbl.filter (fun r => decide (r.seqOrigin = o)))
    have hiff := (List.pairwise_map (f := Prod.snd)
      (R := fun a b : R3Row => cpmDescLe a b = true)
      (l := (sortBy cpmDescLe (tbl.filter (fun r => decide (r.seqOrigin = o)))).enum))
    rw [List.enum_map_snd] at hiff
    exact (hiff.mp hs).imp (fun h => of_decide_eq_true h)

/-- C9 witness: the theorem applied on a three-row, two-origin table. -/
theorem rank_annotate_spec_witness :
    (rankAnnotate [⟨"g1", "1A", "o1", "S1", 5, "o1"⟩,
                   ⟨"g2", "1A", "o1", "S2", 9, "o1"⟩,
                   ⟨"g3", "1A", "o2", "S3", 7, "o2"⟩]).filter
        (fun p => decide (p.2.seqOrigin = "o1"))
      = [(0, ⟨"g2", "1A", "o1", "S2", 9, "o1"⟩), (1, ⟨"g1", "1A", "o1", "S1", 5, "o1"⟩)] := by
  have h := (rank_annotate_spec
    [⟨"g1", "1A", "o1", "S1", 5, "o1"⟩,
     ⟨"g2", "1A", "o1", "S2", 9, "o1"⟩,
     ⟨"g3", "1A", "o2", "S3", 7, "o2"⟩] "o1" (by decide)).1
  rw [h]
  decide

end HoverPlot

namespace HoverPlot

/-! ### Binary32 rounding facts (the `pl.Float32` cast of the plot column) -/

theorem bitlenAux_bounds :
    ∀ fuel n, n ≤ fuel → 1 ≤ n →
      2 ^ (bitlenAux fuel n - 1) ≤ n ∧ n < 2 ^ bitlenAux fuel n
  | 0, n, hle, h1 => by omega
  | fuel + 1, n, hle, h1 => by
    simp only [bitlenAux, if_neg (by omega : ¬ n = 0)]
    by_cases h2 : n / 2 = 0
    · have hn1 : n = 1 := by omega
      subst hn1
      have h0 : bitlenAux fuel 0 = 0 := by cases fuel <;> simp [bitlenAux]
      rw [show (1 : Nat) / 2 = 0 from rfl, h0]
      decide
    · have hrec := bitlenAux_bounds fuel (n / 2) (by omega) (by omega)
      rcases hrec with ⟨hl, hu⟩
      have hb1 : 1 ≤ bitlenAux fuel (n / 2) := by
        rcases Nat.eq_zero_or_pos (bitlenAux fuel (n / 2)) with hb0 | hpos
        · rw [hb0, pow_zero] at hu
          omega
        · exact hpos
      constructor
      · have h5 : 2 ^ (bitlenAux fuel (n / 2) + 1 - 1)
            = 2 * 2 ^ (bitlenAux fuel (n / 2) - 1) := by
          rw [← pow_succ']
          congr 1
          omega
        rw [h5]
        omega
      · have h5 : 2 ^ (bitlenAux fuel (n / 2) + 1) = 2 * 2 ^ bitlenAux fuel (n / 2) := by
          rw [pow_succ]
          ring
        rw [h5]
        omega

theorem bitlen_bounds (n : Nat) (h1 : 1 ≤ n) :
    2 ^ (bitlen n - 1) ≤ n ∧ n < 2 ^ bitlen n :=
  bitlenAux_bounds n n le_rfl h1

theorem abs_eq_natAbs_div_den (q : ℚ) :
    |q| = (q.num.natAbs : ℚ) / (q.den : ℚ) := by
  have hden : (0 : ℚ) < (q.den : ℚ) := by
    exact_mod_cast q.den_pos
  conv_lhs => rw [← Rat.num_div_den q]
  rw [abs_div, abs_of_pos hden]
  congr 1
  rw [← Int.cast_abs, Int.abs_eq_natAbs, Int.cast_natCast]

theorem ratExp_lower (q : ℚ) (hq : q ≠ 0) : (2 : ℚ) ^ ratExp q ≤ |q| := by
  unfold ratExp
  by_cases h : (2 : ℚ) ^ ((bitlen q.num.natAbs : Int) - (bitlen q.den : Int)) ≤ |q|
  · rwa [if_pos h]
  · rw [if_neg h]
    have hnum : 1 ≤ q.num.natAbs := by
      have h2 : q.num ≠ 0 := Rat.num_ne_zero.mpr hq
      omega
    have hden : 1 ≤ q.den := q.den_pos
    obtain ⟨hnl, hnu⟩ := bitlen_bounds q.num.natAbs hnum
    obtain ⟨hdl, hdu⟩ := bitlen_bounds q.den hden
    have hbn1 : 1 ≤ bitlen q.num.natAbs := by
      rcases Nat.eq_zero_or_pos (bitlen q.num.natAbs) with hb0 | hpos
      · rw [hb0, pow_zero] at hnu
        omega
      · exact hpos
    rw [abs_eq_natAbs_div_den]
    have hcast1 : (2 : ℚ) ^ ((bitlen q.num.natAbs : Int) - (bitlen q.den : Int) - 1)
        = (2 : ℚ) ^ ((bitlen q.num.natAbs - 1 : ℕ) : Int)
          / (2 : ℚ) ^ ((bitlen q.den : ℕ) : Int) := by
      rw [← zpow_sub₀ (two_ne_zero)]
      congr 1
      omega
    have h2n : (2 : ℚ) ^ ((bitlen q.num.natAbs - 1 : ℕ) : Int) ≤ (q.num.natAbs : ℚ) := by
      rw [zpow_natCast]
      exact_mod_cast hnl
    have h2d : ((q.den : ℕ) : ℚ) < (2 : ℚ) ^ ((bitlen q.den : ℕ) : Int) := by
      rw [zpow_natCast]
      exact_mod_cast hdu
    have hDpos : (0 : ℚ) < (q.den : ℚ) := by exact_mod_cast q.den_pos
    have hNpos : (0 : ℚ) < (2 : ℚ) ^ ((bitlen q.num.natAbs - 1 : ℕ) : Int) := by positivity
    rw [hcast1]
    have step1 : (2 : ℚ) ^ ((bitlen q.num.natAbs - 1 : ℕ) : Int)
          / (2 : ℚ) ^ ((bitlen q.den : ℕ) : Int)
        < (2 : ℚ) ^ ((bitlen q.num.natAbs - 1 : ℕ) : Int) / (q.den : ℚ) :=
      div_lt_div_of_pos_left hNpos hDpos h2d
    have step2 : (2 : ℚ) ^ ((bitlen q.num.natAbs - 1 : ℕ) : Int) / (q.den : ℚ)
        ≤ (q.num.natAbs : ℚ) / (q.den : ℚ) :=
      (div_le_div_iff_of_pos_right hDpos).mpr h2n
    exact le_of_lt (lt_of_lt_of_le step1 step2)

theorem rhe_intCast (n : Int) : rhe (n : ℚ) = n := by
  unfold rhe
  rw [Int.floor_intCast, sub_self]
  norm_num

/-- A value on the binary32 grid (`m·2^e`, 24-bit significand, exponent
at least the subnormal quantum) is a fixed point of the rounding. -/
theorem roundF32_fixed (q : ℚ) (m e : Int)
    (hq : q = (m : ℚ) * 2 ^ e) (hm : |m| < 2 ^ 24) (he : -149 ≤ e) :
    roundF32 q = q := by
  by_cases h0 : q = 0
  · rw [roundF32, if_pos h0, h0]
  · rw [roundF32, if_neg h0]
    have hup : |q| < (2 : ℚ) ^ (e + 24) := by
      rw [hq, abs_mul, abs_of_pos (show (0 : ℚ) < 2 ^ e by positivity)]
      have hm2 : |(m : ℚ)| < (2 : ℚ) ^ (24 : ℕ) := by
        rw [← Int.cast_abs]
        exact_mod_cast hm
      have hpos : (0 : ℚ) < (2 : ℚ) ^ e := by positivity
      calc |(m : ℚ)| * (2 : ℚ) ^ e
          < (2 : ℚ) ^ (24 : ℕ) * (2 : ℚ) ^ e := mul_lt_mul_of_pos_right hm2 hpos
        _ = (2 : ℚ) ^ (e + 24) := by
            rw [← zpow_natCast (2 : ℚ) 24, ← zpow_add₀ (two_ne_zero)]
            congr 1
            omega
    have hu : f32Ulp q ≤ e := by
      unfold f32Ulp
      by_cases hcase : ratExp q < -126
      · rw [if_pos hcase]
        exact he
      · rw [if_neg hcase]
        have hlow := ratExp_lower q h0
        have hlt : (2 : ℚ) ^ ratExp q < (2 : ℚ) ^ (e + 24) := lt_of_le_of_lt hlow hup
        have h3 := (zpow_lt_zpow_iff_right₀ (by norm_num : (1 : ℚ) < 2)).mp hlt
        omega
    set u := f32Ulp q with hudef
    have hd : (((e - u).toNat : ℕ) : Int) = e - u :=
      Int.toNat_of_nonneg (by omega)
    have hcast : ((m * 2 ^ (e - u).toNat : Int) : ℚ)
        = (m : ℚ) * (2 : ℚ) ^ (((e - u).toNat : ℕ) : Int) := by
      push_cast
      rw [zpow_natCast]
    have hqu : q / 2 ^ u = ((m * 2 ^ (e - u).toNat : Int) : ℚ) := by
      rw [hcast, hd, hq, mul_div_assoc, zpow_sub₀ (two_ne_zero : (2 : ℚ) ≠ 0)]
    rw [hqu, rhe_intCast]
    have hback : ((m * 2 ^ (e - u).toNat : Int) : ℚ) * 2 ^ u = (m : ℚ) * 2 ^ e := by
      rw [hcast, hd, mul_assoc, ← zpow_add₀ (two_ne_zero : (2 : ℚ) ≠ 0)]
      congr 2
      omega
    rw [hback, ← hq]

/-- A binary32-representable value below the overflow threshold is cast
to itself. -/
theorem f32Cast_fixed (q : ℚ) (m e : Int)
    (hq : q = (m : ℚ) * 2 ^ e) (hm : |m| < 2 ^ 24) (he : -149 ≤ e)
    (hlt : |q| < (2 : ℚ) ^ (128 : ℕ)) :
    f32Cast q = .num q := by
  have hr := roundF32_fixed q m e hq hm he
  have h1 : ¬ (2 : ℚ) ^ (128 : ℕ) ≤ q := by
    have h2 := le_abs_self q
    linarith
  have h2 : ¬ q ≤ -(2 : ℚ) ^ (128 : ℕ) := by
    have h3 := neg_abs_le q
    linarith
  rw [f32Cast, hr, if_neg h1, if_neg h2]

/-- `0.1` is not on the binary32 grid: it rounds to `13421773·2^-27`. -/
theorem roundF32_tenth : roundF32 (1 / 10 : ℚ) = 13421773 / 134217728 := by
  have hnum : (1 / 10 : ℚ).num = 1 := by norm_num
  have hden : (1 / 10 : ℚ).den = 10 := by norm_num
  have habs : |(1 / 10 : ℚ)| = 1 / 10 := by
    rw [abs_of_pos]
    norm_num
  have hexp : ratExp (1 / 10 : ℚ) = -4 := by
    unfold ratExp
    rw [hnum, hden, habs]
    rw [show ((1 : Int).natAbs) = 1 from rfl,
      show bitlen 1 = 1 from rfl, show bitlen 10 = 4 from rfl]
    rw [if_neg (by norm_num)]
    norm_num
  have hulp : f32Ulp (1 / 10 : ℚ) = -27 := by
    unfold f32Ulp
    rw [hexp]
    norm_num
  unfold roundF32
  rw [if_neg (by norm_num : ¬ (1 / 10 : ℚ) = 0), hulp]
  have hdiv : (1 / 10 : ℚ) / 2 ^ (-27 : Int) = 134217728 / 10 := by
    rw [show ((-27 : Int)) = -(27 : ℕ) from rfl, zpow_neg, zpow_natCast]
    norm_num
  rw [hdiv]
  have hfl : ⌊(134217728 / 10 : ℚ)⌋ = 13421772 := by norm_num
  have hrhe : rhe (134217728 / 10 : ℚ) = 13421773 := by
    unfold rhe
    rw [hfl]
    rw [if_neg (by norm_num), if_pos (by norm_num)]
    norm_num
  rw [hrhe]
  rw [show ((-27 : Int)) = -(27 : ℕ) from rfl, zpow_neg, zpow_natCast]
  norm_num

theorem f32Cast_tenth : f32Cast (1 / 10 : ℚ) = PlotVal.num (13421773 / 134217728) := by
  unfold f32Cast
  rw [roundF32_tenth]
  rw [if_neg (by norm_num), if_neg (by norm_num)]

/-- C7 (amended): under the Linear scale, every row of the final (sorted,
stacked) plot table carries the `pl.Float32` cast — the binary32
round-to-nearest-even — of the raw measurement value of its source row
for its target column; the plotted value equals the raw value exactly
when the raw value is representable in binary32 (of the form `m·2^e` with
`|m| < 2^24` and `e ≥ -149`, of magnitude below `2^128`).  On values off
that grid, such as `0.1`, the plotted value differs from the raw value —
see the counterexample. -/
theorem linear_scale_f32 (tbl : List StoredRow) (yCols : List String)
    (pr : PlotRow) (h : pr ∈ sortPlot (stackScale tbl yCols "Linear")) :
    ∃ r ∈ tbl, r.index = pr.index ∧ r.sequence = pr.sequence ∧
      pr.target ∈ yCols ∧ pr.plotted = f32Cast (fcVal r pr.target) ∧
      (∀ m e : Int, fcVal r pr.target = (m : ℚ) * 2 ^ e → |m| < 2 ^ 24 → -149 ≤ e →
        |fcVal r pr.target| < (2 : ℚ) ^ (128 : ℕ) →
        pr.plotted = PlotVal.num (fcVal r pr.target)) := by
  unfold sortPlot at h
  have h2 := (sortBy_perm _ _).mem_iff.mp h
  simp only [stackScale, List.mem_flatMap, List.mem_map] at h2
  obtain ⟨y, hy, r, hr, rfl⟩ := h2
  refine ⟨r, hr, rfl, rfl, hy, rfl, ?_⟩
  intro m e hqe hm he hlt
  show applyScale "Linear" (fcVal r y) = PlotVal.num (fcVal r y)
  have hlin : applyScale "Linear" (fcVal r y) = f32Cast (fcVal r y) := rfl
  rw [hlin]
  exact f32Cast_fixed _ m e hqe hm he hlt

/-- C7 witness: on a one-row table with raw value `2` (representable in
binary32), the theorem yields a plotted value equal to the raw value. -/
theorem linear_scale_f32_witness :
    (mkPlotRow "Linear" "FC1"
        (⟨"g", "0Z", "lib", "AAA", 5, [("FC1", 2)], "lib", 0⟩ : StoredRow)).plotted
      = PlotVal.num 2 := by
  obtain ⟨r, hr, hidx, hseq, hy, hcast, hrep⟩ := linear_scale_f32
    [⟨"g", "0Z", "lib", "AAA", 5, [("FC1", 2)], "lib", 0⟩] ["FC1"]
    (mkPlotRow "Linear" "FC1" ⟨"g", "0Z", "lib", "AAA", 5, [("FC1", 2)], "lib", 0⟩)
    (List.mem_cons_self _ _)
  have hrw : r = ⟨"g", "0Z", "lib", "AAA", 5, [("FC1", 2)], "lib", 0⟩ := by
    simpa using hr
  subst hrw
  have h2 : fcVal (⟨"g", "0Z", "lib", "AAA", 5, [("FC1", 2)], "lib", 0⟩ : StoredRow)
      (mkPlotRow "Linear" "FC1"
        (⟨"g", "0Z", "lib", "AAA", 5, [("FC1", 2)], "lib", 0⟩ : StoredRow)).target = 2 := rfl
  rw [hrep 1 1 (by rw [h2]; norm_num) (by decide) (by decide) (by rw [h2]; norm_num), h2]

def c7Row : StoredRow := ⟨"g", "0Z", "lib", "AAA", 5, [("FC1", 1 / 10)], "lib", 0⟩

/-- C7 counterexample: a one-row table whose raw FC value is the finite
value `0.1`.  The Linear-scale plotted value is its float32 rounding
`13421773/2^27`, which is not numerically equal to the raw value. -/
theorem linear_scale_f32_counterexample :
    fcVal c7Row "FC1" = 1 / 10 ∧
    (sortPlot (stackScale [c7Row] ["FC1"] "Linear")).map (fun p => p.plotted)
      = [PlotVal.num (13421773 / 134217728)] ∧
    PlotVal.num (13421773 / 134217728) ≠ PlotVal.num ((1 : ℚ) / 10) := by
  refine ⟨rfl, ?_, ?_⟩
  · show [applyScale "Linear" (fcVal c7Row "FC1")] = _
    show [f32Cast (fcVal c7Row "FC1")] = _
    rw [show fcVal c7Row "FC1" = 1 / 10 from rfl, f32Cast_tenth]
  · intro hcontra
    have h2 : (13421773 / 134217728 : ℚ) = 1 / 10 := by injection hcontra
    norm_num at h2

end HoverPlot
